import Mathlib

/-!
Verification of the text-normalization and summarization core of `wordChef.py`.

The Python functions are shallowly embedded as executable Lean definitions:
Python strings become `String`, spaCy tokens and sentences become explicit
structures whose fields are exactly the attributes the code reads
(`text`, `lemma_`, `pos_`), Python floats in the sentence scorer become
exact rationals `ℚ`, and fallible functions that return `None` or an
error string on bad input become `Option`-valued functions where `none`
models the empty-input error.  The external spaCy annotator is modelled
as an explicit argument (a function producing the annotated tokens or
sentences), since it is an out-of-scope collaborator.

Python string primitives (`lower`, `strip`, `split`, `re.findall` of the
word-character pattern) are modelled by character-list recursions so that
every definition evaluates by kernel reduction; the models cover the ASCII
behaviour of the Python originals, which is all the correction tables and
the concrete inputs exercise.
-/

/-- A spaCy token as consumed by the code, with the attributes the code
reads: surface text, lemma and part-of-speech tag. -/
structure Token where
  text : String
  lemma_ : String
  pos_ : String

/-- A spaCy sentence span as consumed by the code: its tokens and its raw text. -/
structure Sentence where
  tokens : List Token
  text : String

/-- Python `s.lower()` (ASCII model): lowercase every character. -/
def minusculas (s : String) : String := String.mk (s.data.map Char.toLower)

/-- Python `s.strip()` (ASCII model): drop whitespace from both ends. -/
def recortar (s : String) : String :=
  String.mk (((s.data.dropWhile Char.isWhitespace).reverse.dropWhile Char.isWhitespace).reverse)

/-- Maximal runs of characters satisfying `p` in a character list; `acc` holds
the reversed current run.  `runs p co.data` models Python `re.findall` of a
one-character-class-plus pattern, and with the non-whitespace class it models
Python `split()` with no arguments. -/
def runsAux (p : Char → Bool) : List Char → List Char → List String
  | acc, [] => if acc.isEmpty then [] else [String.mk acc.reverse]
  | acc, c :: cs =>
    if p c then runsAux p (c :: acc) cs
    else if acc.isEmpty then runsAux p [] cs
    else String.mk acc.reverse :: runsAux p [] cs

/-- Python `texto.split()`: maximal runs of non-whitespace characters. -/
def palabrasTexto (texto : String) : List String :=
  runsAux (fun c => !c.isWhitespace) [] texto.data

/-- A regex word character, the ASCII reading of `\w`: alphanumeric or underscore. -/
def esAlfanum (c : Char) : Bool := c.isAlphanum || c == '_'

/-- Python `re.findall(r"\w+", o)` (ASCII model): maximal runs of word characters. -/
def palabrasW (o : String) : List String := runsAux esAlfanum [] o.data

/-- Python `texto.split('.')`: split at every period, keeping empty fragments. -/
def separarPuntoAux : List Char → List Char → List String
  | acc, [] => [String.mk acc.reverse]
  | acc, c :: cs =>
    if c = '.' then String.mk acc.reverse :: separarPuntoAux [] cs
    else separarPuntoAux (c :: acc) cs

/-- Python `texto.split('.')` on a string. -/
def separarPunto (texto : String) : List String := separarPuntoAux [] texto.data

/-- `CORRECCIONES_COMUNES` of wordChef.py (misspelling → correction). -/
def CORRECCIONES_COMUNES : List (String × String) :=
  [("haiga", "haya"), ("naiden", "nadie"), ("nadien", "nadie"),
   ("aserca", "acerca"), ("enserio", "en serio"), ("haber", "a ver"), ("iva", "iba")]

/-- `SUSTANTIVOS_NO_NEUTROS` of wordChef.py (noun → article-qualified noun). -/
def SUSTANTIVOS_NO_NEUTROS : List (String × String) :=
  [("casa", "la casa"), ("persona", "la persona"), ("gente", "la gente"),
   ("niño", "el niño"), ("niña", "la niña"), ("camisa", "la camisa")]

/-- The token loop of `corregir_palabras`: `prev` is the lowercased text of the
previous source token (`doc[i-1].text.lower()`), `none` at the first token.
Per token the code tries, in order: the correction table, the gendered-noun
table, the adjacent-source-duplicate check, and otherwise emits the raw text. -/
def corregirAux : Option String → List Token → List String
  | _, [] => []
  | prev, t :: ts =>
    match List.lookup (minusculas t.text) CORRECCIONES_COMUNES,
          List.lookup (minusculas t.text) SUSTANTIVOS_NO_NEUTROS with
    | some r, _ => r :: corregirAux (some (minusculas t.text)) ts
    | none, some r => r :: corregirAux (some (minusculas t.text)) ts
    | none, none =>
      if prev = some (minusculas t.text) then corregirAux (some (minusculas t.text)) ts
      else t.text :: corregirAux (some (minusculas t.text)) ts

/-- `corregir_palabras(doc)` of wordChef.py: join the emitted words with spaces. -/
def corregir_palabras (doc : List Token) : String :=
  String.intercalate " " (corregirAux none doc)

/-- Tail of the adjacent-duplicate pass of `normalizador_texto`:
`[palabras[i] for i in range(len(palabras)) if i == 0 or
palabras[i].lower() != palabras[i-1].lower()]`, with `prev` the previous
source word. -/
def sinRepeticionesAux : String → List String → List String
  | _, [] => []
  | prev, w :: ws =>
    if minusculas w = minusculas prev then sinRepeticionesAux w ws
    else w :: sinRepeticionesAux w ws

/-- The full adjacent-duplicate suppression pass (the first word is always kept). -/
def sinRepeticiones : List String → List String
  | [] => []
  | w :: ws => w :: sinRepeticionesAux w ws

/-- Result record of `normalizador_texto` (the four dictionary fields). -/
structure ResultadoNorm where
  original : String
  lematizado : String
  sin_repeticiones : String
  corregido : String

/-- `normalizador_texto(texto, nlp)` of wordChef.py.  `none` models the Python
`None` returned for empty or all-whitespace input; the annotator `nlp` is
modelled as an optional function from the raw text to its token list. -/
def normalizador_texto (texto : String) (nlp : Option (String → List Token)) :
    Option ResultadoNorm :=
  if texto = "" ∨ recortar texto = "" then none
  else
    match nlp with
    | none =>
      some ⟨texto, "(spaCy requerido)",
        String.intercalate " " (sinRepeticiones (palabrasTexto texto)),
        "(spaCy requerido)"⟩
    | some f =>
      some ⟨texto,
        String.intercalate " " ((f texto).map Token.lemma_),
        String.intercalate " " (sinRepeticiones (palabrasTexto texto)),
        corregir_palabras (f texto)⟩

/-- A plain token whose lemma equals its text, with an uninformative POS tag. -/
def tokenSimple (s : String) : Token := ⟨s, s, "X"⟩

/-- Claim C1 (counterexample): on input tokens `"haiga", "haiga"` the engine
emits `"haya"` twice, not exactly once as the claim states: the correction
table is consulted before the duplicate check on *every* token, so the second
`"haiga"` is also corrected and never reaches duplicate suppression. -/
theorem c1_counterexample :
    corregir_palabras [tokenSimple "haiga", tokenSimple "haiga"] = "haya haya" ∧
    List.count "haya" (corregirAux none [tokenSimple "haiga", tokenSimple "haiga"]) ≠ 1 := by
  constructor
  · rfl
  · decide

/-- Claim C1 (amended): for the two-token input `"haiga", "haiga"` the engine
emits `"haya"` exactly twice: exact-correction via the table fires on both
occurrences, because table lookup precedes the duplicate check on every token,
so a token that is corrected never reaches adjacent-duplicate suppression. -/
theorem c1_amended_twice :
    List.count "haya" (corregirAux none [tokenSimple "haiga", tokenSimple "haiga"]) = 2 := by
  decide

/-- A token with surface text "lo" tagged as a determiner. -/
def tokenLoDet : Token := ⟨"lo", "lo", "DET"⟩

/-- Claim C2 (counterexample): for the one-token sequence `["lo"]` with part of
speech Determiner and no next token, the claim requires the default article
`"el"` to be emitted, but the code emits `"lo"` unchanged: `corregir_palabras`
has no determiner-specific branch and no lookahead at all. -/
theorem c2_counterexample :
    corregir_palabras [tokenLoDet] = "lo" ∧ ("lo" : String) ≠ "el" := by
  constructor
  · rfl
  · decide

/-- Claim C2 (amended): the engine performs no neuter-article resolution on
`"lo"` and no lookahead; instead, any token whose lowercased surface form is a
key of the gendered-noun table (and not of the correction table) is itself
replaced by the mapped article-qualified phrase, and a token `"lo"` (which is
not a table key) is emitted unchanged whenever the previous source token was
not also `"lo"`; no default article `"el"` is ever produced. -/
theorem c2_amended :
    (∀ (t : Token) (prev : Option String) (ts : List Token) (r : String),
      List.lookup (minusculas t.text) CORRECCIONES_COMUNES = none →
      List.lookup (minusculas t.text) SUSTANTIVOS_NO_NEUTROS = some r →
      corregirAux prev (t :: ts) = r :: corregirAux (some (minusculas t.text)) ts) ∧
    (∀ (t : Token) (prev : Option String) (ts : List Token),
      t.text = "lo" → prev ≠ some "lo" →
      corregirAux prev (t :: ts) = "lo" :: corregirAux (some "lo") ts) := by
  constructor
  · intro t prev ts r hc hs
    simp only [corregirAux, hc, hs]
  · intro t prev ts htext hprev
    obtain ⟨tx, tl, tp⟩ := t
    have htx : tx = "lo" := htext
    subst htx
    have hstep : corregirAux prev (Token.mk "lo" tl tp :: ts)
        = if prev = some "lo" then corregirAux (some "lo") ts
          else "lo" :: corregirAux (some "lo") ts := rfl
    rw [hstep, if_neg hprev]

/-- Claim C2 (amended, witness): at the concrete input `["lo"(DET), "casa"]`
the determiner is emitted unchanged and the noun is replaced by its
article-qualified phrase from the table. -/
theorem c2_amended_witness :
    List.lookup (minusculas (Token.text (tokenSimple "casa"))) CORRECCIONES_COMUNES = none ∧
    List.lookup (minusculas (Token.text (tokenSimple "casa"))) SUSTANTIVOS_NO_NEUTROS
      = some "la casa" ∧
    Token.text tokenLoDet = "lo" ∧ (none : Option String) ≠ some "lo" ∧
    corregirAux none [tokenLoDet, tokenSimple "casa"] = ["lo", "la casa"] := by
  refine ⟨by rfl, by rfl, by rfl, by decide, ?_⟩
  rw [c2_amended.2 tokenLoDet none [tokenSimple "casa"] (by rfl) (by decide)]
  rw [c2_amended.1 (tokenSimple "casa") (some "lo") [] "la casa" (by rfl) (by rfl)]
  rfl

/-- Claim C3 (counterexample): a token `"haber"` with no preceding token (so no
exhortative trigger word precedes it) is nevertheless emitted as `"a ver"`,
not unchanged: `"haber"` is a key of the correction table, so the replacement
is unconditional and context-free, contradicting the claimed contextual rule. -/
theorem c3_counterexample :
    corregir_palabras [tokenSimple "haber"] = "a ver" ∧ ("a ver" : String) ≠ "haber" := by
  constructor
  · rfl
  · decide

/-- Claim C3 (amended): a token whose lowercased surface form is `"haber"` is
always emitted as `"a ver"`, regardless of the preceding token: the correction
table contains the entry `"haber" → "a ver"` and table lookup fires
unconditionally, so in particular the replacement also happens after
`vamos, voy, van, vas, quiera`, but equally after any other context. -/
theorem c3_amended (t : Token) (prev : Option String) (ts : List Token)
    (h : minusculas t.text = "haber") :
    corregirAux prev (t :: ts) = "a ver" :: corregirAux (some "haber") ts := by
  simp only [corregirAux, h]
  rfl

/-- Claim C3 (amended, witness): concrete instances, one with the trigger word
`"vamos"` preceding and one with a non-trigger word preceding. -/
theorem c3_amended_witness :
    minusculas (Token.text (tokenSimple "haber")) = "haber" ∧
    corregirAux (some "vamos") [tokenSimple "haber"] = ["a ver"] ∧
    corregirAux (some "dime") [tokenSimple "haber"] = ["a ver"] := by
  refine ⟨by rfl, ?_, ?_⟩
  · exact c3_amended (tokenSimple "haber") (some "vamos") [] (by rfl)
  · exact c3_amended (tokenSimple "haber") (some "dime") [] (by rfl)

/-- Words that differ after lowercasing: the comparison that drives
adjacent-duplicate suppression. -/
def difiereMin (a b : String) : Prop := minusculas a ≠ minusculas b

/-- `difiereMin` only depends on the lowercased forms, so a chain can be
re-rooted at any word with the same lowercase form. -/
theorem chain_difiereMin_congr {a b : String} {l : List String}
    (h : minusculas a = minusculas b)
    (hc : List.Chain difiereMin a l) : List.Chain difiereMin b l := by
  cases l with
  | nil => exact List.Chain.nil
  | cons w ws =>
    rw [List.chain_cons] at hc ⊢
    exact ⟨fun e => hc.1 (h.trans e), hc.2⟩

/-- Every word emitted by the suppression pass differs, case-insensitively,
from the word emitted just before it (and the first from `prev`). -/
theorem chain_sinRepeticionesAux (ws : List String) :
    ∀ prev, List.Chain difiereMin prev (sinRepeticionesAux prev ws) := by
  induction ws with
  | nil => intro prev; exact List.Chain.nil
  | cons w ws ih =>
    intro prev
    by_cases h : minusculas w = minusculas prev
    · simp only [sinRepeticionesAux, if_pos h]
      exact chain_difiereMin_congr h (ih w)
    · simp only [sinRepeticionesAux, if_neg h]
      rw [List.chain_cons]
      exact ⟨fun e => h e.symm, ih w⟩

/-- On a list with no adjacent case-insensitive duplicates (also against
`prev`), the suppression pass keeps everything. -/
theorem sinRepeticionesAux_eq_self {l : List String} :
    ∀ {prev}, List.Chain difiereMin prev l → sinRepeticionesAux prev l = l := by
  induction l with
  | nil => intro prev _; rfl
  | cons w ws ih =>
    intro prev h
    rw [List.chain_cons] at h
    have hne : ¬ (minusculas w = minusculas prev) := fun e => h.1 e.symm
    simp only [sinRepeticionesAux, if_neg hne]
    rw [ih h.2]

/-- Claim C9: adjacent-duplicate suppression (keep a word only when it is the
first word or differs case-insensitively from the immediately preceding word)
is idempotent: applying the pass twice equals applying it once. -/
theorem c9_sin_repeticiones_idempotente (l : List String) :
    sinRepeticiones (sinRepeticiones l) = sinRepeticiones l := by
  cases l with
  | nil => rfl
  | cons w ws =>
    simp only [sinRepeticiones]
    rw [sinRepeticionesAux_eq_self (chain_sinRepeticionesAux ws w)]

/-- Noun count of an annotated sentence: `len([t for t in oracion if t.pos_ == "NOUN"])`. -/
def sustantivosOracion (o : Sentence) : ℕ :=
  (o.tokens.filter (fun t => t.pos_ == "NOUN")).length

/-- Fallback noun approximation:
`len([w for w in re.findall(r"\w+", oracion) if len(w) > 2])`. -/
def sustantivosAprox (o : String) : ℕ :=
  ((palabrasW o).filter (fun w => 2 < w.length)).length

/-- Score of annotated sentence `i`, mirroring the accumulation in
`resumen_simple`: noun count, minus length of the sentence text over 200,
plus 1 for the first sentence; floats are modelled exactly as rationals. -/
def puntaje_oracion (i : ℕ) (o : Sentence) : ℚ :=
  let puntaje : ℚ := (0 : ℚ) + (sustantivosOracion o : ℚ) - (o.text.length : ℚ) / 200
  if i = 0 then puntaje + 1 else puntaje

/-- Score of fallback sentence `i` (a plain string). -/
def puntaje_fallback (i : ℕ) (o : String) : ℚ :=
  let puntaje : ℚ := (0 : ℚ) + (sustantivosAprox o : ℚ) - (o.length : ℚ) / 200
  if i = 0 then puntaje + 1 else puntaje

/-- The `puntuaciones` list built by the scoring loop: pairs `(i, score i)` in
ascending index order, starting at index `b`. -/
def puntuacionesDesde (f : ℕ → α → ℚ) : ℕ → List α → List (ℕ × ℚ)
  | _, [] => []
  | i, o :: os => (i, f i o) :: puntuacionesDesde f (i + 1) os

/-- Stable insertion step of the descending sort by score: `x` goes before the
first element whose score is less than or equal to `x`'s, so among equal
scores the earlier element of the original list stays first, exactly the
guarantee of Python's stable `sorted(..., key=score, reverse=True)`. -/
def insertDesc (x : ℕ × ℚ) : List (ℕ × ℚ) → List (ℕ × ℚ)
  | [] => [x]
  | y :: ys => if y.2 ≤ x.2 then x :: y :: ys else y :: insertDesc x ys

/-- Stable sort by descending score.  A stable sort's output is uniquely
determined by the key comparison and the input order, so this insertion sort
computes the same list as Python's Timsort-based
`sorted(puntuaciones, key=lambda x: x[1], reverse=True)`. -/
def sortDesc : List (ℕ × ℚ) → List (ℕ × ℚ)
  | [] => []
  | x :: xs => insertDesc x (sortDesc xs)

/-- Insertion step of the ascending sort of the selected indices. -/
def insertAsc (x : ℕ) : List ℕ → List ℕ
  | [] => [x]
  | y :: ys => if x ≤ y then x :: y :: ys else y :: insertAsc x ys

/-- `sorted(indices)`: ascending sort of the selected (distinct) indices. -/
def sortAsc : List ℕ → List ℕ
  | [] => []
  | x :: xs => insertAsc x (sortAsc xs)

/-- `mejores = sorted(puntuaciones, key=lambda x: x[1], reverse=True)[:n]`. -/
def mejores (f : ℕ → α → ℚ) (oraciones : List α) (n : ℕ) : List (ℕ × ℚ) :=
  (sortDesc (puntuacionesDesde f 0 oraciones)).take n

/-- `indices = sorted([idx for idx, _ in mejores])`. -/
def seleccion (f : ℕ → α → ℚ) (oraciones : List α) (n : ℕ) : List ℕ :=
  sortAsc ((mejores f oraciones n).map Prod.fst)

/-- Fallback sentence segmentation:
`[s.strip() for s in texto.split('.') if s.strip()]`. -/
def oracionesFallback (texto : String) : List String :=
  (separarPunto texto).foldr
    (fun s acc => if recortar s = "" then acc else recortar s :: acc) []

/-- `resumen_simple(texto, n, nlp)` with an annotator: `doc` is the sentence
list the annotator produced for `texto`; `none` models the Python error
string returned for empty input. -/
def resumen_simple_nlp (texto : String) (doc : List Sentence) (n : ℕ) : Option String :=
  if texto = "" ∨ recortar texto = "" then none
  else if doc.length ≤ n then some texto
  else some (String.intercalate " "
    ((seleccion puntaje_oracion doc n).map (fun i => recortar (doc.getD i ⟨[], ""⟩).text)))

/-- `resumen_simple(texto, n)` without an annotator (the fallback path). -/
def resumen_simple_sin_nlp (texto : String) (n : ℕ) : Option String :=
  if texto = "" ∨ recortar texto = "" then none
  else if (oracionesFallback texto).length ≤ n then some texto
  else some (String.intercalate " "
    ((seleccion puntaje_fallback (oracionesFallback texto) n).map
      (fun i => (oracionesFallback texto).getD i "")))

/-- Claim C8: for every input text that is empty or all-whitespace, both the
normalizer and the summarizer (on either path, with or without an annotator)
signal the empty-input error; the model returns `none` from the guard that the
code executes before any tokenization or resource access. -/
theorem c8_entrada_vacia (texto : String) (h : recortar texto = "") :
    (∀ nlp, normalizador_texto texto nlp = none) ∧
    (∀ doc n, resumen_simple_nlp texto doc n = none) ∧
    (∀ n, resumen_simple_sin_nlp texto n = none) := by
  refine ⟨fun nlp => ?_, fun doc n => ?_, fun n => ?_⟩
  · simp only [normalizador_texto, if_pos (Or.inr h)]
  · simp only [resumen_simple_nlp, if_pos (Or.inr h)]
  · simp only [resumen_simple_sin_nlp, if_pos (Or.inr h)]

/-- Claim C8 (witness): `normalize("")` and `summarize("   ", 3)` on both
paths return the empty-input error. -/
theorem c8_entrada_vacia_witness :
    recortar "" = "" ∧ recortar "   " = "" ∧
    normalizador_texto "" none = none ∧
    resumen_simple_nlp "   " [] 3 = none ∧
    resumen_simple_sin_nlp "   " 3 = none := by
  exact ⟨rfl, rfl, (c8_entrada_vacia "" rfl).1 none,
    (c8_entrada_vacia "   " rfl).2.1 [] 3, (c8_entrada_vacia "   " rfl).2.2 3⟩

/-- Inserting into the descending sort permutes consing. -/
theorem insertDesc_perm (x : ℕ × ℚ) (l : List (ℕ × ℚ)) :
    List.Perm (insertDesc x l) (x :: l) := by
  induction l with
  | nil => exact List.Perm.refl _
  | cons y ys ih =>
    by_cases h : y.2 ≤ x.2
    · simp only [insertDesc, if_pos h]
      exact List.Perm.refl _
    · simp only [insertDesc, if_neg h]
      exact (ih.cons y).trans (List.Perm.swap x y ys)

/-- The descending sort is a permutation of its input. -/
theorem sortDesc_perm (l : List (ℕ × ℚ)) : List.Perm (sortDesc l) l := by
  induction l with
  | nil => exact List.Perm.refl _
  | cons x xs ih =>
    exact (insertDesc_perm x (sortDesc xs)).trans (ih.cons x)

/-- Inserting preserves sortedness by weakly descending score. -/
theorem insertDesc_pairwise {x : ℕ × ℚ} {l : List (ℕ × ℚ)}
    (h : List.Pairwise (fun a b : ℕ × ℚ => b.2 ≤ a.2) l) :
    List.Pairwise (fun a b : ℕ × ℚ => b.2 ≤ a.2) (insertDesc x l) := by
  induction l with
  | nil => simp [insertDesc]
  | cons y ys ih =>
    rw [List.pairwise_cons] at h
    by_cases hxy : y.2 ≤ x.2
    · simp only [insertDesc, if_pos hxy]
      rw [List.pairwise_cons]
      refine ⟨?_, List.pairwise_cons.mpr h⟩
      intro z hz
      rcases List.mem_cons.mp hz with rfl | hz
      · exact hxy
      · exact le_trans (h.1 z hz) hxy
    · simp only [insertDesc, if_neg hxy]
      rw [List.pairwise_cons]
      refine ⟨?_, ih h.2⟩
      intro z hz
      rcases List.mem_cons.mp ((insertDesc_perm x ys).mem_iff.mp hz) with rfl | hz
      · exact le_of_not_le hxy
      · exact h.1 z hz

/-- The descending sort is sorted by weakly descending score. -/
theorem sortDesc_pairwise (l : List (ℕ × ℚ)) :
    List.Pairwise (fun a b : ℕ × ℚ => b.2 ≤ a.2) (sortDesc l) := by
  induction l with
  | nil => exact List.Pairwise.nil
  | cons x xs ih => exact insertDesc_pairwise ih

/-- Stability, insertion step, inserted element has the observed score:
the elements passed over all have strictly greater score, so filtering by
the score puts `x` first. -/
theorem insertDesc_filter_pos (s : ℚ) (x : ℕ × ℚ) (l : List (ℕ × ℚ)) (hx : x.2 = s) :
    (insertDesc x l).filter (fun y => decide (y.2 = s))
      = x :: l.filter (fun y => decide (y.2 = s)) := by
  induction l with
  | nil => simp [insertDesc, hx]
  | cons y ys ih =>
    by_cases h : y.2 ≤ x.2
    · simp only [insertDesc, if_pos h]
      rw [List.filter_cons, if_pos (by simp [hx])]
    · have hy : ¬ (y.2 = s) := fun e => h (le_of_eq (e.trans hx.symm))
      simp only [insertDesc, if_neg h]
      rw [List.filter_cons, if_neg (by simp [hy]), ih, List.filter_cons,
        if_neg (by simp [hy])]

/-- Stability, insertion step, inserted element has another score: the filter
by the observed score does not see the insertion. -/
theorem insertDesc_filter_neg (s : ℚ) (x : ℕ × ℚ) (l : List (ℕ × ℚ)) (hx : ¬ (x.2 = s)) :
    (insertDesc x l).filter (fun y => decide (y.2 = s))
      = l.filter (fun y => decide (y.2 = s)) := by
  induction l with
  | nil => simp [insertDesc, hx]
  | cons y ys ih =>
    by_cases h : y.2 ≤ x.2
    · simp only [insertDesc, if_pos h]
      rw [List.filter_cons, if_neg (by simp [hx])]
    · simp only [insertDesc, if_neg h]
      rw [List.filter_cons, ih, List.filter_cons]

/-- Stability of the descending sort: restricted to any one score value, the
sorted list lists the elements in their original order. -/
theorem sortDesc_filter (s : ℚ) (l : List (ℕ × ℚ)) :
    (sortDesc l).filter (fun y => decide (y.2 = s))
      = l.filter (fun y => decide (y.2 = s)) := by
  induction l with
  | nil => rfl
  | cons x xs ih =>
    by_cases hx : x.2 = s
    · simp only [sortDesc]
      rw [insertDesc_filter_pos s x _ hx, ih, List.filter_cons, if_pos (by simp [hx])]
    · simp only [sortDesc]
      rw [insertDesc_filter_neg s x _ hx, ih, List.filter_cons, if_neg (by simp [hx])]

/-- Inserting into the ascending index sort permutes consing. -/
theorem insertAsc_perm (x : ℕ) (l : List ℕ) : List.Perm (insertAsc x l) (x :: l) := by
  induction l with
  | nil => exact List.Perm.refl _
  | cons y ys ih =>
    by_cases h : x ≤ y
    · simp only [insertAsc, if_pos h]
      exact List.Perm.refl _
    · simp only [insertAsc, if_neg h]
      exact (ih.cons y).trans (List.Perm.swap x y ys)

/-- The ascending index sort is a permutation of its input. -/
theorem sortAsc_perm (l : List ℕ) : List.Perm (sortAsc l) l := by
  induction l with
  | nil => exact List.Perm.refl _
  | cons x xs ih =>
    exact (insertAsc_perm x (sortAsc xs)).trans (ih.cons x)

/-- Inserting preserves weak ascending sortedness of the indices. -/
theorem insertAsc_pairwise {x : ℕ} {l : List ℕ}
    (h : List.Pairwise (fun a b : ℕ => a ≤ b) l) :
    List.Pairwise (fun a b : ℕ => a ≤ b) (insertAsc x l) := by
  induction l with
  | nil => simp [insertAsc]
  | cons y ys ih =>
    rw [List.pairwise_cons] at h
    by_cases hxy : x ≤ y
    · simp only [insertAsc, if_pos hxy]
      rw [List.pairwise_cons]
      refine ⟨?_, List.pairwise_cons.mpr h⟩
      intro z hz
      rcases List.mem_cons.mp hz with rfl | hz
      · exact hxy
      · exact le_trans hxy (h.1 z hz)
    · simp only [insertAsc, if_neg hxy]
      rw [List.pairwise_cons]
      refine ⟨?_, ih h.2⟩
      intro z hz
      rcases List.mem_cons.mp ((insertAsc_perm x ys).mem_iff.mp hz) with rfl | hz
      · exact le_of_not_le hxy
      · exact h.1 z hz

/-- The ascending index sort is sorted. -/
theorem sortAsc_pairwise (l : List ℕ) :
    List.Pairwise (fun a b : ℕ => a ≤ b) (sortAsc l) := by
  induction l with
  | nil => exact List.Pairwise.nil
  | cons x xs ih => exact insertAsc_pairwise ih

/-- A weakly sorted list without duplicates is strictly sorted. -/
theorem pairwise_lt_of_le_nodup {l : List ℕ}
    (h1 : List.Pairwise (fun a b : ℕ => a ≤ b) l) (h2 : l.Nodup) :
    List.Pairwise (fun a b : ℕ => a < b) l := by
  induction l with
  | nil => exact List.Pairwise.nil
  | cons x xs ih =>
    rw [List.pairwise_cons] at h1
    rw [List.nodup_cons] at h2
    refine List.pairwise_cons.mpr ⟨?_, ih h1.2 h2.2⟩
    intro b hb
    exact lt_of_le_of_ne (h1.1 b hb) (fun e => h2.1 (by rw [e]; exact hb))

/-- The scored list has as many entries as there are sentences. -/
theorem puntuacionesDesde_length (f : ℕ → α → ℚ) :
    ∀ (b : ℕ) (l : List α), (puntuacionesDesde f b l).length = l.length := by
  intro b l
  induction l generalizing b with
  | nil => rfl
  | cons o os ih => simp [puntuacionesDesde, ih]

/-- Every entry of the scored list carries an index in the window given by
the starting index and the number of sentences. -/
theorem mem_puntuacionesDesde (f : ℕ → α → ℚ) :
    ∀ (l : List α) (b : ℕ) (q : ℕ × ℚ),
      q ∈ puntuacionesDesde f b l → b ≤ q.1 ∧ q.1 < b + l.length := by
  intro l
  induction l with
  | nil => intro b q hq; simp [puntuacionesDesde] at hq
  | cons o os ih =>
    intro b q hq
    rcases List.mem_cons.mp hq with rfl | hq
    · simp only [List.length_cons]
      omega
    · have := ih (b + 1) q hq
      simp only [List.length_cons]
      omega

/-- The scored list is in strictly ascending index order. -/
theorem puntuacionesDesde_pairwise (f : ℕ → α → ℚ) :
    ∀ (l : List α) (b : ℕ),
      List.Pairwise (fun p q : ℕ × ℚ => p.1 < q.1) (puntuacionesDesde f b l) := by
  intro l
  induction l with
  | nil => intro b; exact List.Pairwise.nil
  | cons o os ih =>
    intro b
    refine List.pairwise_cons.mpr ⟨?_, ih (b + 1)⟩
    intro q hq
    have := (mem_puntuacionesDesde f os (b + 1) q hq).1
    omega

/-- In a list with strictly increasing indices, an entry is determined by its
index. -/
theorem pairwise_fst_inj {l : List (ℕ × ℚ)}
    (h : List.Pairwise (fun p q : ℕ × ℚ => p.1 < q.1) l) :
    ∀ p ∈ l, ∀ q ∈ l, p.1 = q.1 → p = q := by
  induction l with
  | nil => intro p hp; simp at hp
  | cons x xs ih =>
    rw [List.pairwise_cons] at h
    intro p hp q hq he
    rcases List.mem_cons.mp hp with hpx | hpm
    · rcases List.mem_cons.mp hq with hqx | hqm
      · rw [hpx, hqx]
      · rw [hpx] at he
        exact absurd he (ne_of_lt (h.1 q hqm))
    · rcases List.mem_cons.mp hq with hqx | hqm
      · rw [hqx] at he
        exact absurd he.symm (ne_of_lt (h.1 p hpm))
      · exact ih h.2 p hpm q hqm he

/-- Membership in the selected index list, through the ascending re-sort. -/
theorem mem_seleccion_iff {f : ℕ → α → ℚ} {oraciones : List α} {n i} :
    i ∈ seleccion f oraciones n ↔ ∃ q ∈ mejores f oraciones n, q.1 = i := by
  unfold seleccion
  rw [(sortAsc_perm _).mem_iff, List.mem_map]

/-- The selected index list has no duplicate and is strictly increasing. -/
theorem seleccion_pairwise_lt (f : ℕ → α → ℚ) (oraciones : List α) (n : ℕ) :
    List.Pairwise (fun a b : ℕ => a < b) (seleccion f oraciones n) := by
  have hpw := puntuacionesDesde_pairwise f oraciones 0
  have hfstnd : ((puntuacionesDesde f 0 oraciones).map Prod.fst).Nodup :=
    (List.pairwise_map.mpr hpw).imp (fun h => ne_of_lt h)
  have hsortnd : ((sortDesc (puntuacionesDesde f 0 oraciones)).map Prod.fst).Nodup :=
    (((sortDesc_perm _).map Prod.fst).symm.nodup hfstnd)
  have htakend : ((mejores f oraciones n).map Prod.fst).Nodup :=
    List.Nodup.sublist ((List.take_sublist n _).map Prod.fst) hsortnd
  have hselnd : (seleccion f oraciones n).Nodup :=
    (sortAsc_perm _).symm.nodup htakend
  exact pairwise_lt_of_le_nodup (sortAsc_pairwise _) hselnd

/-- Every selected index is a valid position in the sentence list. -/
theorem seleccion_lt_length (f : ℕ → α → ℚ) (oraciones : List α) (n : ℕ) :
    ∀ i ∈ seleccion f oraciones n, i < oraciones.length := by
  intro i hi
  rcases mem_seleccion_iff.mp hi with ⟨q, hq, rfl⟩
  have hqs : q ∈ sortDesc (puntuacionesDesde f 0 oraciones) := List.mem_of_mem_take hq
  have hqp : q ∈ puntuacionesDesde f 0 oraciones := (sortDesc_perm _).mem_iff.mp hqs
  have := (mem_puntuacionesDesde f oraciones 0 q hqp).2
  omega

/-- The number of selected indices is `min n` of the number of sentences. -/
theorem seleccion_length (f : ℕ → α → ℚ) (oraciones : List α) (n : ℕ) :
    (seleccion f oraciones n).length = min n oraciones.length := by
  unfold seleccion mejores
  rw [(sortAsc_perm _).length_eq, List.length_map, List.length_take,
    (sortDesc_perm _).length_eq, puntuacionesDesde_length]

/-- Claim C4: for every text, annotated document and `max_sentences ≥ 1`, the
summarizer (on either path) returns at most `min(max_sentences, total)`
sentences, and when the sentence count is at most `max_sentences` it returns
the full original input text exactly. -/
theorem c4_cota_longitud (texto : String) (doc : List Sentence) (n : ℕ)
    (hn : 1 ≤ n) (ht : recortar texto ≠ "") :
    ((doc.length ≤ n → resumen_simple_nlp texto doc n = some texto) ∧
      (seleccion puntaje_oracion doc n).length ≤ min n doc.length) ∧
    (((oracionesFallback texto).length ≤ n → resumen_simple_sin_nlp texto n = some texto) ∧
      (seleccion puntaje_fallback (oracionesFallback texto) n).length
        ≤ min n (oracionesFallback texto).length) := by
  have hcond : ¬ (texto = "" ∨ recortar texto = "") := by
    rintro (rfl | h)
    · exact ht rfl
    · exact ht h
  refine ⟨⟨fun hlen => ?_, ?_⟩, fun hlen => ?_, ?_⟩
  · simp only [resumen_simple_nlp, if_neg hcond, if_pos hlen]
  · exact le_of_eq (seleccion_length puntaje_oracion doc n)
  · simp only [resumen_simple_sin_nlp, if_neg hcond, if_pos hlen]
  · exact le_of_eq (seleccion_length puntaje_fallback (oracionesFallback texto) n)

/-- A concrete annotated sentence with one noun ("El gato.", noun "gato"). -/
def oracionA : Sentence := ⟨[⟨"gato", "gato", "NOUN"⟩], "El gato."⟩

/-- A concrete annotated sentence with no noun. -/
def oracionB : Sentence := ⟨[], "y entonces se fue"⟩

/-- Claim C4 (witness): a 2-sentence document with `max_sentences = 3`
satisfies the hypotheses, so the short-circuit returns the text unchanged. -/
theorem c4_cota_longitud_witness :
    (1 ≤ 3 ∧ recortar "hola. adios." ≠ "") ∧
    (([oracionA, oracionB] : List Sentence).length ≤ 3 →
        resumen_simple_nlp "hola. adios." [oracionA, oracionB] 3 = some "hola. adios.") ∧
    ((oracionesFallback "hola. adios.").length ≤ 3 →
        resumen_simple_sin_nlp "hola. adios." 3 = some "hola. adios.") := by
  refine ⟨⟨by decide, by decide⟩, ?_, ?_⟩
  · exact (c4_cota_longitud "hola. adios." [oracionA, oracionB] 3 (by decide) (by decide)).1.1
  · exact (c4_cota_longitud "hola. adios." [oracionA, oracionB] 3 (by decide) (by decide)).2.1

/-- Claim C5: past the short-circuit, the summarizer output is the join, in
strictly increasing original-index order, of a subset of the input sentences:
the selected indices are strictly increasing, all within bounds, and the
output is exactly the join of the selected sentences' trimmed texts. -/
theorem c5_indices_crecientes (texto : String) (doc : List Sentence) (n : ℕ)
    (ht : recortar texto ≠ "") (hlen : n < doc.length) :
    resumen_simple_nlp texto doc n
        = some (String.intercalate " "
            ((seleccion puntaje_oracion doc n).map
              (fun i => recortar (doc.getD i ⟨[], ""⟩).text))) ∧
    List.Pairwise (fun a b : ℕ => a < b) (seleccion puntaje_oracion doc n) ∧
    ∀ i ∈ seleccion puntaje_oracion doc n, i < doc.length := by
  have hcond : ¬ (texto = "" ∨ recortar texto = "") := by
    rintro (rfl | h)
    · exact ht rfl
    · exact ht h
  refine ⟨?_, seleccion_pairwise_lt puntaje_oracion doc n,
    seleccion_lt_length puntaje_oracion doc n⟩
  simp only [resumen_simple_nlp, if_neg hcond, if_neg (not_le.mpr hlen)]

/-- Claim C5 (witness): a concrete 2-sentence document with `n = 1`. -/
theorem c5_indices_crecientes_witness :
    (recortar "hola x." ≠ "" ∧ 1 < ([oracionA, oracionB] : List Sentence).length) ∧
    List.Pairwise (fun a b : ℕ => a < b)
      (seleccion puntaje_oracion [oracionA, oracionB] 1) ∧
    ∀ i ∈ seleccion puntaje_oracion [oracionA, oracionB] 1,
      i < ([oracionA, oracionB] : List Sentence).length := by
  refine ⟨⟨by decide, by decide⟩, ?_, ?_⟩
  · exact (c5_indices_crecientes "hola x." [oracionA, oracionB] 1 (by decide) (by decide)).2.1
  · exact (c5_indices_crecientes "hola x." [oracionA, oracionB] 1 (by decide) (by decide)).2.2

/-- Claim C6: the summarizer scores annotated sentence `i` with noun count `c`
and character length `L` as `c - L/200 + (1 if i == 0 else 0)`, and the
selected `mejores` are the `n` highest-scoring sentences: every kept score is
at least every dropped score. -/
theorem c6_puntaje_y_seleccion :
    (∀ (i : ℕ) (o : Sentence),
      puntaje_oracion i o
        = (sustantivosOracion o : ℚ) - ((Sentence.text o).length : ℚ) / 200
            + (if i = 0 then 1 else 0)) ∧
    (∀ (doc : List Sentence) (n : ℕ) (p q : ℕ × ℚ),
      p ∈ mejores puntaje_oracion doc n →
      q ∈ (sortDesc (puntuacionesDesde puntaje_oracion 0 doc)).drop n →
      q.2 ≤ p.2) := by
  constructor
  · intro i o
    by_cases h : i = 0
    · simp only [puntaje_oracion, if_pos h]
      ring
    · simp only [puntaje_oracion, if_neg h]
      ring
  · intro doc n p q hp hq
    have hp2 : p ∈ (sortDesc (puntuacionesDesde puntaje_oracion 0 doc)).take n := hp
    have hs := sortDesc_pairwise (puntuacionesDesde puntaje_oracion 0 doc)
    rw [← List.take_append_drop n (sortDesc (puntuacionesDesde puntaje_oracion 0 doc))] at hs
    rcases List.pairwise_append.mp hs with ⟨-, -, hcross⟩
    exact hcross p hp2 q hq

attribute [local semireducible] Rat.mul Rat.inv Rat.add Rat.sub

/-- Claim C6 (witness): on a concrete 2-sentence document with `n = 1`, the
first-sentence score follows the formula and the kept score dominates the
dropped one. -/
theorem c6_puntaje_y_seleccion_witness :
    (0, puntaje_oracion 0 oracionA) ∈ mejores puntaje_oracion [oracionA, oracionB] 1 ∧
    (1, puntaje_oracion 1 oracionB)
      ∈ (sortDesc (puntuacionesDesde puntaje_oracion 0 [oracionA, oracionB])).drop 1 ∧
    puntaje_oracion 0 oracionA
      = (sustantivosOracion oracionA : ℚ) - ((Sentence.text oracionA).length : ℚ) / 200
          + (if (0 : ℕ) = 0 then 1 else 0) ∧
    (1, puntaje_oracion 1 oracionB).2 ≤ (0, puntaje_oracion 0 oracionA).2 := by
  refine ⟨by decide, by decide, c6_puntaje_y_seleccion.1 0 oracionA, ?_⟩
  exact c6_puntaje_y_seleccion.2 [oracionA, oracionB] 1 _ _ (by decide) (by decide)

/-- The spec's fallback noun approximation, modelled from the spec's words for
comparison with the code (refinement check): the number of
whitespace-delimited tokens longer than two characters. -/
def sustantivosEspec (o : String) : ℕ :=
  ((palabrasTexto o).filter (fun w => 2 < w.length)).length

/-- Claim C7 (counterexample): on the sentence `"ab,cd"` the code counts
regex-word runs longer than two characters (there are none: `"ab"` and
`"cd"`), not whitespace-delimited tokens longer than two characters (there is
one: `"ab,cd"`), so the claimed approximation disagrees with the code. -/
theorem c7_counterexample :
    sustantivosAprox "ab,cd" = 0 ∧ sustantivosEspec "ab,cd" = 1 ∧
    sustantivosAprox "ab,cd" ≠ sustantivosEspec "ab,cd" := by
  exact ⟨rfl, rfl, by decide⟩

/-- Claim C7 (amended): without an annotator the summarizer obtains sentences
by splitting on the period character, trimming, and discarding fragments that
are empty after trimming; and it approximates a sentence's noun count as the
number of maximal word-character runs (the matches of `\w+`: ASCII letters,
digits or underscore) longer than two characters — not whitespace-delimited
tokens. -/
theorem c7_amended :
    (∀ texto, oracionesFallback texto
        = ((separarPunto texto).map recortar).filter (fun s => s ≠ "")) ∧
    (∀ o, sustantivosAprox o
        = List.countP (fun w => decide (2 < w.length)) (palabrasW o)) := by
  constructor
  · intro texto
    unfold oracionesFallback
    generalize separarPunto texto = L
    induction L with
    | nil => rfl
    | cons s ss ih =>
      by_cases h : recortar s = ""
      · simp [h, ih]
      · simp [h, ih]
  · intro o
    exact (List.countP_eq_length_filter _ _).symm

/-- Claim C10: the descending sort by score is stable over the ascending-index
score list, so among equal scores the sentence with the smaller original index
is preferred: if sentences `i < j` carry the same score and `j` is selected,
then `i` is selected too.  (The model is a deterministic function, so the
selection is deterministic by construction.) -/
theorem c10_estabilidad (doc : List Sentence) (n i j : ℕ) (s : ℚ)
    (hij : i < j)
    (hi : (i, s) ∈ puntuacionesDesde puntaje_oracion 0 doc)
    (hj : (j, s) ∈ puntuacionesDesde puntaje_oracion 0 doc)
    (hsel : j ∈ seleccion puntaje_oracion doc n) :
    i ∈ seleccion puntaje_oracion doc n := by
  have hpw := puntuacionesDesde_pairwise puntaje_oracion doc 0
  rcases mem_seleccion_iff.mp hsel with ⟨q, hq, hq1⟩
  have hqs : q ∈ sortDesc (puntuacionesDesde puntaje_oracion 0 doc) :=
    List.mem_of_mem_take hq
  have hqp : q ∈ puntuacionesDesde puntaje_oracion 0 doc :=
    (sortDesc_perm _).mem_iff.mp hqs
  have hqeq : q = (j, s) := pairwise_fst_inj hpw q hqp (j, s) hj hq1
  rw [hqeq] at hq
  have him : (i, s) ∈ sortDesc (puntuacionesDesde puntaje_oracion 0 doc) :=
    (sortDesc_perm _).mem_iff.mpr hi
  rw [← List.take_append_drop n (sortDesc (puntuacionesDesde puntaje_oracion 0 doc))] at him
  rcases List.mem_append.mp him with htake | hdrop
  · exact mem_seleccion_iff.mpr ⟨(i, s), htake, rfl⟩
  · exfalso
    have hfil : ((sortDesc (puntuacionesDesde puntaje_oracion 0 doc)).take n).filter
          (fun y => decide (y.2 = s))
        ++ ((sortDesc (puntuacionesDesde puntaje_oracion 0 doc)).drop n).filter
          (fun y => decide (y.2 = s))
        = (puntuacionesDesde puntaje_oracion 0 doc).filter (fun y => decide (y.2 = s)) := by
      rw [← List.filter_append, List.take_append_drop, sortDesc_filter]
    have hppw : List.Pairwise (fun p q : ℕ × ℚ => p.1 < q.1)
        ((puntuacionesDesde puntaje_oracion 0 doc).filter (fun y => decide (y.2 = s))) :=
      List.Pairwise.sublist (List.filter_sublist _) hpw
    rw [← hfil] at hppw
    rcases List.pairwise_append.mp hppw with ⟨-, -, hcross⟩
    have hjf : (j, s) ∈ ((sortDesc (puntuacionesDesde puntaje_oracion 0 doc)).take n).filter
        (fun y => decide (y.2 = s)) := List.mem_filter.mpr ⟨hq, by simp⟩
    have hif : (i, s) ∈ ((sortDesc (puntuacionesDesde puntaje_oracion 0 doc)).drop n).filter
        (fun y => decide (y.2 = s)) := List.mem_filter.mpr ⟨hdrop, by simp⟩
    have hlt : j < i := hcross _ hjf _ hif
    omega

/-- A concrete sentence with no noun and four characters (score 49/50 at
index 0). -/
def oracionC : Sentence := ⟨[], "abcd"⟩

/-- A concrete sentence with one noun and two characters (score 99/100 away
from index 0). -/
def oracionD : Sentence := ⟨[⟨"sol", "sol", "NOUN"⟩], "ab"⟩

/-- Claim C10 (witness): sentences 1 and 2 of a concrete 3-sentence document
tie; with `n = 2` the stable sort selects both, and the theorem recovers that
index 1 is selected because index 2 is. -/
theorem c10_estabilidad_witness :
    (1 : ℕ) < 2 ∧
    ((1 : ℕ), puntaje_oracion 1 oracionD)
      ∈ puntuacionesDesde puntaje_oracion 0 [oracionC, oracionD, oracionD] ∧
    ((2 : ℕ), puntaje_oracion 1 oracionD)
      ∈ puntuacionesDesde puntaje_oracion 0 [oracionC, oracionD, oracionD] ∧
    (2 : ℕ) ∈ seleccion puntaje_oracion [oracionC, oracionD, oracionD] 2 ∧
    (1 : ℕ) ∈ seleccion puntaje_oracion [oracionC, oracionD, oracionD] 2 := by
  refine ⟨by decide, by decide, by decide, by decide, ?_⟩
  exact c10_estabilidad [oracionC, oracionD, oracionD] 2 1 2 (puntaje_oracion 1 oracionD)
    (by decide) (by decide) (by decide) (by decide)
